import Mathlib

/-!
Verification of the PII-sanitization core of `Backend/main.py`.

Text is modelled as `List Char` with Python slicing `text[s:e]` as
`(text.take e).drop s` (all indices produced by the code are non-negative).
Python strings (labels, masks, entity categories) are likewise `List Char`,
written via `String.data` on literals.  Integer word-ids and character
offsets are `Nat` (the tokenizer only produces non-negative values).
-/

/-- Python `str.isspace` restricted to the ASCII whitespace characters that
the repository's inputs can contain (`str.strip()` with no argument). -/
def isPySpace (c : Char) : Bool :=
  c = ' ' || c = '\t' || c = '\n' || c = '\r' || c = Char.ofNat 11 || c = Char.ofNat 12

/-- Python slice `text[s:e]` for non-negative `s`, `e`. -/
def pyslice (text : List Char) (s e : Nat) : List Char :=
  (text.take e).drop s

/-- Python `str.strip()`: drop whitespace from both ends. -/
def pystrip (l : List Char) : List Char :=
  ((l.dropWhile isPySpace).reverse.dropWhile isPySpace).reverse

/-- Python `str.startswith(p)`. -/
def pyStartsWith (l p : List Char) : Bool :=
  p.isPrefixOf l

/-- Python `dict` lookup on an association list (the dict literals in the
source have no duplicate keys, so first-match lookup is exact). -/
def dictFind {κ ν : Type} [DecidableEq κ] : List (κ × ν) → κ → Option ν
  | [], _ => none
  | (k, v) :: rest, key => if key = k then some v else dictFind rest key

/-- `LABEL_TO_MASK` from `main.py` lines 23-57.  Values are `Option` because
the Python dict maps `"O"` to `None`. -/
def LABEL_TO_MASK : List (List Char × Option (List Char)) :=
  [ ("B-ACCOUNT".data, some "[ACCOUNT]".data)
  , ("I-ACCOUNT".data, some "[ACCOUNT]".data)
  , ("B-DATE".data, some "[DATE]".data)
  , ("I-DATE".data, some "[DATE]".data)
  , ("B-DEVICE".data, some "[DEVICE]".data)
  , ("I-DEVICE".data, some "[DEVICE]".data)
  , ("B-EMAIL".data, some "[EMAIL]".data)
  , ("I-EMAIL".data, some "[EMAIL]".data)
  , ("B-FAX".data, some "[FAX]".data)
  , ("I-FAX".data, some "[FAX]".data)
  , ("B-HEALTHPLAN".data, some "[HEALTHPLAN]".data)
  , ("I-HEALTHPLAN".data, some "[HEALTHPLAN]".data)
  , ("B-ID".data, some "[ID]".data)
  , ("I-ID".data, some "[ID]".data)
  , ("B-IP".data, some "[IP]".data)
  , ("I-IP".data, some "[IP]".data)
  , ("B-LICENSE".data, some "[LICENSE]".data)
  , ("I-LICENSE".data, some "[LICENSE]".data)
  , ("B-LOCATION".data, some "[LOCATION]".data)
  , ("I-LOCATION".data, some "[LOCATION]".data)
  , ("B-MRN".data, some "[MRN]".data)
  , ("I-MRN".data, some "[MRN]".data)
  , ("B-NAME".data, some "[BNAME]".data)
  , ("I-NAME".data, some "[INAME]".data)
  , ("B-PHONE".data, some "[PHONE]".data)
  , ("I-PHONE".data, some "[PHONE]".data)
  , ("B-SSN".data, some "[SSN]".data)
  , ("I-SSN".data, some "[SSN]".data)
  , ("B-URL".data, some "[URL]".data)
  , ("I-URL".data, some "[URL]".data)
  , ("B-VEHICLE".data, some "[VEHICLE]".data)
  , ("I-VEHICLE".data, some "[VEHICLE]".data)
  , ("O".data, none)
  ]

/-- An entity produced by `group_entities` (`main.py` lines 80-85):
a dict with keys `type`, `tokens`, `word_ids`, `start_idx`. -/
structure Entity where
  type : List Char
  tokens : List (List Char)
  word_ids : List Nat
  start_idx : Nat
deriving DecidableEq

/-- Ghost-instrumented entity: identical to `Entity` but additionally
records, for each member token, its index in the scanned sequence (`idxs`)
and its label (`labs`).  Used only to state and prove invariants; `projI`
erases the ghost fields and `geLoopI_proj` shows the instrumented grouper
computes exactly `group_entities`. -/
structure EntityI where
  type : List Char
  tokens : List (List Char)
  word_ids : List Nat
  start_idx : Nat
  idxs : List Nat
  labs : List (List Char)
deriving DecidableEq

/-- Erase the ghost fields. -/
def projI (e : EntityI) : Entity :=
  ⟨e.type, e.tokens, e.word_ids, e.start_idx⟩

/-- Python `zip(tokens, labels, word_ids)` (`main.py` line 71). -/
def zip3 (ts ls : List (List Char)) (ws : List (Option Nat)) :
    List (List Char × List Char × Option Nat) :=
  ts.zip (ls.zip ws)

/-- The loop of `group_entities` (`main.py` lines 71-108): `i` is the
`enumerate` counter, `es` the `entities` list, `cur` the `current_entity`. -/
def geLoop : Nat → List (List Char × List Char × Option Nat) →
    List Entity → Option Entity → List Entity
  | _, [], es, cur => es ++ cur.toList
  | i, (tok, lab, w) :: rest, es, cur =>
    match w with
    | none => geLoop (i + 1) rest es cur
    | some wid =>
      if pyStartsWith lab "B-".data then
        geLoop (i + 1) rest (es ++ cur.toList) (some ⟨lab.drop 2, [tok], [wid], i⟩)
      else if pyStartsWith lab "I-".data then
        match cur with
        | some ce =>
          if lab.drop 2 = ce.type then
            geLoop (i + 1) rest es
              (some ⟨ce.type, ce.tokens ++ [tok], ce.word_ids ++ [wid], ce.start_idx⟩)
          else
            geLoop (i + 1) rest (es ++ [ce]) (some ⟨lab.drop 2, [tok], [wid], i⟩)
        | none => geLoop (i + 1) rest es (some ⟨lab.drop 2, [tok], [wid], i⟩)
      else
        geLoop (i + 1) rest (es ++ cur.toList) none

/-- `group_entities(tokens, labels, word_ids)` (`main.py` lines 66-110). -/
def group_entities (tokens labels : List (List Char)) (wids : List (Option Nat)) :
    List Entity :=
  geLoop 0 (zip3 tokens labels wids) [] none

/-- Instrumented copy of `geLoop`: same control flow, additionally recording
member indices and member labels. -/
def geLoopI : Nat → List (List Char × List Char × Option Nat) →
    List EntityI → Option EntityI → List EntityI
  | _, [], es, cur => es ++ cur.toList
  | i, (tok, lab, w) :: rest, es, cur =>
    match w with
    | none => geLoopI (i + 1) rest es cur
    | some wid =>
      if pyStartsWith lab "B-".data then
        geLoopI (i + 1) rest (es ++ cur.toList) (some ⟨lab.drop 2, [tok], [wid], i, [i], [lab]⟩)
      else if pyStartsWith lab "I-".data then
        match cur with
        | some ce =>
          if lab.drop 2 = ce.type then
            geLoopI (i + 1) rest es
              (some ⟨ce.type, ce.tokens ++ [tok], ce.word_ids ++ [wid], ce.start_idx,
                     ce.idxs ++ [i], ce.labs ++ [lab]⟩)
          else
            geLoopI (i + 1) rest (es ++ [ce]) (some ⟨lab.drop 2, [tok], [wid], i, [i], [lab]⟩)
        | none => geLoopI (i + 1) rest es (some ⟨lab.drop 2, [tok], [wid], i, [i], [lab]⟩)
      else
        geLoopI (i + 1) rest (es ++ cur.toList) none

/-- Instrumented `group_entities`. -/
def group_entitiesI (tokens labels : List (List Char)) (wids : List (Option Nat)) :
    List EntityI :=
  geLoopI 0 (zip3 tokens labels wids) [] none

/-- Mask selection (`main.py` lines 198-203).  Returns `Option` because the
Python expression `LABEL_TO_MASK.get(key, default)` could in principle
return `None` (the stored value of key `"O"`); `maskFor_isSome` below shows
it never does. -/
def maskFor (etype firstLabel : List Char) : Option (List Char) :=
  if etype = "NAME".data then
    some (if firstLabel = "B-NAME".data then "[BNAME]".data else "[INAME]".data)
  else
    match dictFind LABEL_TO_MASK ("B-".data ++ etype) with
    | some v => v
    | none => some ('[' :: (etype ++ [']']))

/-- A replacement tuple `(start_char, end_char, mask)` (`main.py` line 205). -/
structure Repl where
  start_char : Nat
  end_char : Nat
  mask : List Char
deriving DecidableEq

/-- The body of the entity loop of `sanitize_text` (`main.py` lines 167-205):
resolves one entity to a `(redacted_item, replacement)` pair, or `none`
when the entity is discarded.  `labels.getD`/`offsets.getD` model the
Python indexing, which is guarded in-bounds (lines 176-177 for offsets;
`start_idx < len(labels)` always holds for grouper output, see `C8`).
The final `.getD []` on the mask is dead code by `maskFor_isSome`. -/
def processEntity (text : List Char) (labels : List (List Char))
    (offsets : List (Nat × Nat)) (e : Entity) : Option (List Char × Repl) :=
  if e.word_ids = [] then none
  else
    let a := e.start_idx
    let b := e.start_idx + e.tokens.length - 1
    if a ≥ offsets.length ∨ b ≥ offsets.length then none
    else
      let sc := (offsets.getD a (0, 0)).1
      let ec := (offsets.getD b (0, 0)).2
      if sc = 0 ∧ ec = 0 then none
      else if sc ≥ text.length ∨ ec > text.length then none
      else if sc ≥ ec then none
      else
        let etext := pystrip (pyslice text sc ec)
        if etext = [] then none
        else
          let firstLabel := labels.getD e.start_idx []
          let mask := (maskFor e.type firstLabel).getD []
          some (etext, ⟨sc, ec, mask⟩)

/-- One string rewrite `sanitized_text[:start] + mask + sanitized_text[end:]`
(`main.py` lines 213-217). -/
def applyRepl (s : List Char) (r : Repl) : List Char :=
  s.take r.start_char ++ r.mask ++ s.drop r.end_char

/-- Stable insertion step for descending-by-`start_char` sort. -/
def insertDesc (r : Repl) : List Repl → List Repl
  | [] => [r]
  | x :: xs => if x.start_char < r.start_char then r :: x :: xs else x :: insertDesc r xs

/-- `replacements.sort(key=lambda x: x[0], reverse=True)` (`main.py` line 208):
stable sort, descending by start position. -/
def sortDescStart (rs : List Repl) : List Repl :=
  rs.foldl (fun acc r => insertDesc r acc) []

/-- The rewrite loop of `main.py` lines 211-217. -/
def buildSanitized (text : List Char) (rs : List Repl) : List Char :=
  rs.foldl applyRepl text

/-- `sanitize_text`'s pure core applied to an explicit entity list
(`main.py` lines 164-222): collect `(redacted_item, replacement)` pairs in
entity order, rewrite the text in descending-start order, and return the
sanitized text together with `redacted_items` in collection order. -/
def sanitizeCore (text : List Char) (labels : List (List Char))
    (offsets : List (Nat × Nat)) (entities : List Entity) :
    List Char × List (List Char) :=
  let c := entities.filterMap (processEntity text labels offsets)
  (buildSanitized text (sortDescStart (c.map (·.2))), c.map (·.1))

/-- The collected `(redacted_item, replacement)` pairs of one sanitize call. -/
def sanCollect (text : List Char) (labels : List (List Char))
    (offsets : List (Nat × Nat)) (tokens : List (List Char))
    (wids : List (Option Nat)) : List (List Char × Repl) :=
  (group_entities tokens labels wids).filterMap (processEntity text labels offsets)

/-- The pure part of `sanitize_text` (`main.py` lines 161-222), from the
tokenizer/model outputs onwards. -/
def sanitize (text : List Char) (labels : List (List Char))
    (offsets : List (Nat × Nat)) (tokens : List (List Char))
    (wids : List (Option Nat)) : List Char × List (List Char) :=
  sanitizeCore text labels offsets (group_entities tokens labels wids)

/-- Key of a Python dict that mixes string keys and int keys, as
`model.config.id2label` may (`main.py` lines 146-158). -/
abbrev PyKey := Sum (List Char) Int

/-- Label lookup for one predicted id (`main.py` lines 149-158): try the
string form of the id, then the int form, else fall back to `"O"`. -/
def labelOfPred (d : List (PyKey × List Char)) (p : Int) : List Char :=
  match dictFind d (Sum.inl (toString p).data) with
  | some v => v
  | none =>
    match dictFind d (Sum.inr p) with
    | some v => v
    | none => "O".data

/-! ### Claim-side BIO state machine (spec §4.1 / §4.3 state machine) -/

/-- A label as the spec reads it: Begin with a category, Inside with a
category, or anything else (Outside). -/
inductive LabKind : Type
  | begin (cat : List Char)
  | inside (cat : List Char)
  | outside
deriving DecidableEq

/-- Classify a raw label string. -/
def labKind (lab : List Char) : LabKind :=
  if pyStartsWith lab "B-".data then .begin (lab.drop 2)
  else if pyStartsWith lab "I-".data then .inside (lab.drop 2)
  else .outside

/-- One transition of the spec's state machine: given the open entity (or
`none` for Idle), return the entities emitted now and the new state.
Begin closes any open entity and opens a new one; Inside appends iff the
category matches, otherwise closes and opens its own (orphan recovery);
Outside closes without opening. -/
def bioTrans (i : Nat) (tok : List Char) (wid : Nat) (k : LabKind)
    (st : Option Entity) : List Entity × Option Entity :=
  match k, st with
  | .begin c, st => (st.toList, some ⟨c, [tok], [wid], i⟩)
  | .inside c, some e =>
    if c = e.type then
      ([], some ⟨e.type, e.tokens ++ [tok], e.word_ids ++ [wid], e.start_idx⟩)
    else ([e], some ⟨c, [tok], [wid], i⟩)
  | .inside c, none => ([], some ⟨c, [tok], [wid], i⟩)
  | .outside, st => (st.toList, none)

/-- Run the state machine over the token stream, skipping tokens with an
absent word-group id, and flush the open entity at end of input. -/
def bioRun : Nat → List (List Char × List Char × Option Nat) →
    Option Entity → List Entity
  | _, [], st => st.toList
  | i, (tok, lab, w) :: rest, st =>
    match w with
    | none => bioRun (i + 1) rest st
    | some wid =>
      (bioTrans i tok wid (labKind lab) st).1 ++
        bioRun (i + 1) rest (bioTrans i tok wid (labKind lab) st).2

/-- The grouper as the spec describes it. -/
def bioGroup (tokens labels : List (List Char)) (wids : List (Option Nat)) :
    List Entity :=
  bioRun 0 (zip3 tokens labels wids) none

lemma geLoop_eq_bioRun :
    ∀ (xs : List (List Char × List Char × Option Nat)) (i : Nat)
      (es : List Entity) (cur : Option Entity),
      geLoop i xs es cur = es ++ bioRun i xs cur := by
  intro xs
  induction xs with
  | nil => intro i es cur; simp [geLoop, bioRun]
  | cons x rest ih =>
    intro i es cur
    obtain ⟨tok, lab, w⟩ := x
    cases w with
    | none => simp [geLoop, bioRun, ih]
    | some wid =>
      by_cases hB : pyStartsWith lab "B-".data
      · simp [geLoop, bioRun, labKind, hB, bioTrans, ih]
      · by_cases hI : pyStartsWith lab "I-".data
        · cases cur with
          | none => simp [geLoop, bioRun, labKind, hB, hI, bioTrans, ih]
          | some ce =>
            by_cases hty : lab.drop 2 = ce.type
            · simp [geLoop, bioRun, labKind, hB, hI, hty, bioTrans, ih]
            · simp [geLoop, bioRun, labKind, hB, hI, hty, bioTrans, ih]
        · simp [geLoop, bioRun, labKind, hB, hI, bioTrans, ih]

/-! ### Resolver-level lemmas -/

lemma dictFind_mem {κ ν : Type} [DecidableEq κ] :
    ∀ (d : List (κ × ν)) (k : κ) (v : ν), dictFind d k = some v → (k, v) ∈ d := by
  intro d
  induction d with
  | nil => intro k v h; simp [dictFind] at h
  | cons p rest ih =>
    intro k v h
    obtain ⟨k', v'⟩ := p
    by_cases hk : k = k'
    · simp [dictFind, hk] at h
      subst hk; subst h; exact List.mem_cons_self _ _
    · simp [dictFind, hk] at h
      exact List.mem_cons_of_mem _ (ih k v h)

/-- The only `LABEL_TO_MASK` entry whose value is `None` is the one with
key `"O"`. -/
lemma LABEL_TO_MASK_none_key :
    ∀ p ∈ LABEL_TO_MASK, p.2 = none → p.1 = "O".data := by decide

/-- Mask selection never yields `None`: the `"O" → None` entry is
unreachable because the looked-up key always starts with `"B-"`. -/
lemma maskFor_isSome (etype flab : List Char) : (maskFor etype flab).isSome := by
  unfold maskFor
  split
  · simp
  · cases hd : dictFind LABEL_TO_MASK ("B-".data ++ etype) with
    | none => simp
    | some v =>
      cases v with
      | some s => simp
      | none =>
        have hmem := dictFind_mem _ _ _ hd
        have hkey := LABEL_TO_MASK_none_key _ hmem rfl
        have hBD : "B-".data ++ etype = 'B' :: '-' :: etype := rfl
        rw [hBD] at hkey
        have hO : "O".data = ['O'] := rfl
        rw [hO] at hkey
        injection hkey with h1 _
        exact absurd h1 (by decide)

/-- Everything `processEntity text labels offsets e = some pr` implies:
all resolver rules passed and the result fields are as computed by the
source. -/
lemma processEntity_some_spec {text : List Char} {labels : List (List Char)}
    {offsets : List (Nat × Nat)} {e : Entity} {pr : List Char × Repl}
    (h : processEntity text labels offsets e = some pr) :
    e.word_ids ≠ [] ∧
    e.start_idx < offsets.length ∧
    e.start_idx + e.tokens.length - 1 < offsets.length ∧
    pr.2.start_char = (offsets.getD e.start_idx (0, 0)).1 ∧
    pr.2.end_char = (offsets.getD (e.start_idx + e.tokens.length - 1) (0, 0)).2 ∧
    ¬(pr.2.start_char = 0 ∧ pr.2.end_char = 0) ∧
    pr.2.start_char < text.length ∧
    pr.2.end_char ≤ text.length ∧
    pr.2.start_char < pr.2.end_char ∧
    pr.1 = pystrip (pyslice text pr.2.start_char pr.2.end_char) ∧
    pr.1 ≠ [] ∧
    pr.2.mask = (maskFor e.type (labels.getD e.start_idx [])).getD [] := by
  simp only [processEntity] at h
  split_ifs at h with h1 h2 h3 h4 h5 h6
  push_neg at h2 h4 h5
  injection h with h'
  subst h'
  exact ⟨h1, h2.1, h2.2, rfl, rfl, h3, h4.1, h4.2, h5, rfl, h6, rfl⟩

/-- C6 second half helper shape: a discarded entity contributes nothing. -/
lemma sanitizeCore_drop_entity (text : List Char) (labels : List (List Char))
    (offsets : List (Nat × Nat)) (e : Entity) (es1 es2 : List Entity)
    (h : processEntity text labels offsets e = none) :
    sanitizeCore text labels offsets (es1 ++ e :: es2) =
      sanitizeCore text labels offsets (es1 ++ es2) := by
  simp [sanitizeCore, List.filterMap_append, List.filterMap_cons, h]

/-- C6: span resolution applies its rejection rules in order — member
indices within offset-table bounds, span not `(0,0)`, `start_char <
len(text)` and `end_char <= len(text)`, `start_char < end_char`, and
whitespace-trimmed substring non-empty — and an entity failing any rule is
silently dropped from both the sanitized text and the redacted-items list
(both outputs of `sanitizeCore`), with no error raised. -/
theorem C6_resolver_rules (text : List Char) (labels : List (List Char))
    (offsets : List (Nat × Nat)) (e : Entity) (es1 es2 : List Entity)
    (hne : e.tokens ≠ []) (hlen : e.tokens.length = e.word_ids.length) :
    (processEntity text labels offsets e = none ↔
      ¬ (e.start_idx < offsets.length ∧
         e.start_idx + e.tokens.length - 1 < offsets.length ∧
         ¬ ((offsets.getD e.start_idx (0, 0)).1 = 0 ∧
            (offsets.getD (e.start_idx + e.tokens.length - 1) (0, 0)).2 = 0) ∧
         (offsets.getD e.start_idx (0, 0)).1 < text.length ∧
         (offsets.getD (e.start_idx + e.tokens.length - 1) (0, 0)).2 ≤ text.length ∧
         (offsets.getD e.start_idx (0, 0)).1 <
           (offsets.getD (e.start_idx + e.tokens.length - 1) (0, 0)).2 ∧
         pystrip (pyslice text (offsets.getD e.start_idx (0, 0)).1
           (offsets.getD (e.start_idx + e.tokens.length - 1) (0, 0)).2) ≠ [])) ∧
    (processEntity text labels offsets e = none →
      sanitizeCore text labels offsets (es1 ++ e :: es2) =
        sanitizeCore text labels offsets (es1 ++ es2)) := by
  have hw : ¬ (e.word_ids = []) := by
    intro h0
    exact hne (List.length_eq_zero.mp (by rw [hlen, h0]; rfl))
  refine ⟨?_, fun h => sanitizeCore_drop_entity text labels offsets e es1 es2 h⟩
  simp only [processEntity]
  rw [if_neg hw]
  split_ifs with h2 h3 h4 h5 h6
  · refine iff_of_true rfl ?_
    rintro ⟨hA, hB, -⟩
    rcases h2 with h2 | h2 <;> omega
  · refine iff_of_true rfl ?_
    rintro ⟨-, -, hC, -⟩
    exact hC h3
  · refine iff_of_true rfl ?_
    rintro ⟨-, -, -, hD, hE, -⟩
    rcases h4 with h4 | h4 <;> omega
  · refine iff_of_true rfl ?_
    rintro ⟨-, -, -, -, -, hF, -⟩
    omega
  · refine iff_of_true rfl ?_
    rintro ⟨-, -, -, -, -, -, hG⟩
    exact hG h6
  · push_neg at h2 h4
    refine iff_of_false (by simp) ?_
    intro hn
    exact hn ⟨by omega, by omega, h3, h4.1, h4.2, by omega, h6⟩

/-- Witness for C6: a concrete entity whose `start_idx` is out of offset
bounds is silently dropped. -/
theorem C6_witness :
    (⟨"PHONE".data, ["x".data], [0], 5⟩ : Entity).tokens ≠ [] ∧
    sanitizeCore "x".data ["B-PHONE".data] [(0, 1)]
        [⟨"PHONE".data, ["x".data], [0], 5⟩] =
      sanitizeCore "x".data ["B-PHONE".data] [(0, 1)] [] :=
  ⟨by decide,
   (C6_resolver_rules "x".data ["B-PHONE".data] [(0, 1)]
      ⟨"PHONE".data, ["x".data], [0], 5⟩ [] [] (by decide) (by decide)).2 (by decide)⟩

/-- C9: mask selection — for category `"NAME"` the mask is `[BNAME]` exactly
when the first member token's label is `"B-NAME"` and `[INAME]` otherwise;
for any other category the catalog value is used when the key `B-<cat>` is
present and the default literal `[<cat>]` otherwise; and selection never
fails (never yields Python `None`).  `processEntity` applies `maskFor` to
`labels[start_idx]`, i.e. the label of the entity's first member token. -/
theorem C9_mask_selection (etype flab : List Char) :
    (etype = "NAME".data →
      ((maskFor etype flab = some "[BNAME]".data ↔ flab = "B-NAME".data) ∧
       (flab ≠ "B-NAME".data → maskFor etype flab = some "[INAME]".data))) ∧
    (etype ≠ "NAME".data →
      (dictFind LABEL_TO_MASK ("B-".data ++ etype) = none →
        maskFor etype flab = some ('[' :: (etype ++ [']']))) ∧
      (∀ s, dictFind LABEL_TO_MASK ("B-".data ++ etype) = some (some s) →
        maskFor etype flab = some s)) ∧
    (maskFor etype flab).isSome := by
  refine ⟨?_, ?_, maskFor_isSome etype flab⟩
  · intro hty
    subst hty
    constructor
    · constructor
      · intro h
        by_cases hf : flab = "B-NAME".data
        · exact hf
        · simp only [maskFor, if_pos rfl, if_neg hf] at h
          injection h with h'
          exact absurd h' (by decide)
      · intro hf
        simp [maskFor, hf]
    · intro hf
      simp [maskFor, hf]
  · intro hty
    refine ⟨fun hd => ?_, fun s hd => ?_⟩
    · have hd' : dictFind LABEL_TO_MASK ('B' :: '-' :: etype) = none := hd
      simp [maskFor, hty, hd']
    · have hd' : dictFind LABEL_TO_MASK ('B' :: '-' :: etype) = some (some s) := hd
      simp [maskFor, hty, hd']

/-- Witness for C9: category NAME with first label `B-NAME` picks `[BNAME]`;
an unrecognized category falls back to the bracketed literal. -/
theorem C9_witness :
    ("NAME".data = "NAME".data ∧
      maskFor "NAME".data "B-NAME".data = some "[BNAME]".data) ∧
    ("FOO".data ≠ "NAME".data ∧
      maskFor "FOO".data "O".data = some ('[' :: ("FOO".data ++ [']']))) :=
  ⟨⟨rfl, ((C9_mask_selection "NAME".data "B-NAME".data).1 rfl).1.mpr rfl⟩,
   ⟨by decide, ((C9_mask_selection "FOO".data "O".data).2.1 (by decide)).1 (by decide)⟩⟩

/-- C10: the redacted item recorded for a surviving span is the
whitespace-stripped extract `text[start:end].strip()`, while the
replacement span (and hence the mask position) covers the full untrimmed
range `[start_char, end_char)`; consequently the reported item differs
from the removed substring whenever stripping changes it. -/
theorem C10_trimmed_item (text : List Char) (labels : List (List Char))
    (offsets : List (Nat × Nat)) (e : Entity) (pr : List Char × Repl)
    (h : processEntity text labels offsets e = some pr) :
    pr.1 = pystrip (pyslice text pr.2.start_char pr.2.end_char) ∧
    pr.2.start_char = (offsets.getD e.start_idx (0, 0)).1 ∧
    pr.2.end_char = (offsets.getD (e.start_idx + e.tokens.length - 1) (0, 0)).2 ∧
    (pystrip (pyslice text pr.2.start_char pr.2.end_char) ≠
        pyslice text pr.2.start_char pr.2.end_char →
      pr.1 ≠ pyslice text pr.2.start_char pr.2.end_char) := by
  obtain ⟨-, -, -, h4, h5, -, -, -, -, h10, -, -⟩ := processEntity_some_spec h
  exact ⟨h10, h4, h5, fun hne => by rw [h10]; exact hne⟩

/-- Witness for C10: a span with trailing whitespace — the item is the
stripped text, differing from the exact substring that the mask replaced. -/
theorem C10_witness :
    processEntity "ab  ".data ["B-SSN".data] [(0, 4)]
        ⟨"SSN".data, ["ab".data], [0], 0⟩ =
      some ("ab".data, ⟨0, 4, "[SSN]".data⟩) ∧
    ("ab".data, (⟨0, 4, "[SSN]".data⟩ : Repl)).1 =
      pystrip (pyslice "ab  ".data 0 4) ∧
    ("ab".data, (⟨0, 4, "[SSN]".data⟩ : Repl)).1 ≠ pyslice "ab  ".data 0 4 :=
  ⟨by decide,
   (C10_trimmed_item "ab  ".data ["B-SSN".data] [(0, 4)]
      ⟨"SSN".data, ["ab".data], [0], 0⟩ _ (by decide)).1,
   (C10_trimmed_item "ab  ".data ["B-SSN".data] [(0, 4)]
      ⟨"SSN".data, ["ab".data], [0], 0⟩ _ (by decide)).2.2.2 (by decide)⟩

/-! ### The descending-order rewrite pass (C4) -/

/-- A set of replacement spans listed in ascending order, all pairwise
non-overlapping and within the text, starting no earlier than cursor `c`:
the claim's hypothesis for the rewrite pass. -/
def ChainRepl (text : List Char) : Nat → List Repl → Prop
  | c, [] => c ≤ text.length
  | c, r :: rs => c ≤ r.start_char ∧ r.start_char < r.end_char ∧ ChainRepl text r.end_char rs

/-- The claim-side description of the sanitized result: from cursor `p`
onward, the unreplaced fragment up to each span's start, then that span's
mask in place of the removed substring, and finally the tail of the text —
together covering the full original string. -/
def renderFrom (text : List Char) : Nat → List Repl → List Char
  | p, [] => text.drop p
  | p, r :: rs => ((text.take r.start_char).drop p) ++ r.mask ++ renderFrom text r.end_char rs

instance instDecidableChainRepl (text : List Char) :
    ∀ (c : Nat) (rs : List Repl), Decidable (ChainRepl text c rs)
  | c, [] => inferInstanceAs (Decidable (c ≤ text.length))
  | _, r :: rs =>
    letI := instDecidableChainRepl text r.end_char rs
    inferInstanceAs (Decidable (_ ∧ _ ∧ _))

lemma chainRepl_le_length {text : List Char} :
    ∀ {c : Nat} {rs : List Repl}, ChainRepl text c rs → c ≤ text.length := by
  intro c rs
  induction rs generalizing c with
  | nil => intro h; exact h
  | cons r rs ih =>
    rintro ⟨h1, h2, h3⟩
    have := ih h3
    omega

lemma chainRepl_mono {text : List Char} {c c' : Nat} {rs : List Repl}
    (h : ChainRepl text c rs) (hle : c' ≤ c) : ChainRepl text c' rs := by
  cases rs with
  | nil => exact le_trans hle h
  | cons r rs => exact ⟨le_trans hle h.1, h.2.1, h.2.2⟩

lemma renderFrom_take_drop {text : List Char} :
    ∀ (rs : List Repl) (c q : Nat), ChainRepl text c rs → q ≤ c →
      (renderFrom text 0 rs).take q = text.take q ∧
      (renderFrom text 0 rs).drop q = renderFrom text q rs := by
  intro rs
  induction rs with
  | nil =>
    intro c q _ _
    constructor
    · simp [renderFrom]
    · simp [renderFrom]
  | cons r rs _ =>
    intro c q hch hq
    obtain ⟨h1, h2, h3⟩ := hch
    have hel : r.end_char ≤ text.length := chainRepl_le_length h3
    have hqlen : q ≤ (text.take r.start_char).length := by
      simp only [List.length_take]
      omega
    constructor
    · rw [renderFrom, List.drop_zero, List.append_assoc,
        List.take_append_of_le_length hqlen, List.take_take,
        Nat.min_eq_left (by omega)]
    · rw [renderFrom, List.drop_zero, List.append_assoc,
        List.drop_append_of_le_length hqlen, renderFrom, ← List.append_assoc]

/-- Applying a chained list of replacements back-to-front (last span first)
produces exactly the interleaving of unreplaced fragments and masks. -/
lemma revApply_eq_renderFrom {text : List Char} :
    ∀ (rs : List Repl), ChainRepl text 0 rs →
      List.foldl applyRepl text rs.reverse = renderFrom text 0 rs := by
  intro rs
  induction rs with
  | nil => intro _; simp [renderFrom]
  | cons r rs ih =>
    intro hch
    obtain ⟨h1, h2, h3⟩ := hch
    have hch0 : ChainRepl text 0 rs := chainRepl_mono h3 (Nat.zero_le _)
    have hR := ih hch0
    rw [List.reverse_cons, List.foldl_append, hR]
    have htake := (renderFrom_take_drop rs r.end_char r.start_char h3 (by omega)).1
    have hdrop := (renderFrom_take_drop rs r.end_char r.end_char h3 (le_refl _)).2
    simp only [List.foldl_cons, List.foldl_nil, applyRepl, htake, hdrop]
    rw [renderFrom, List.drop_zero]

/-- On a list with strictly ascending starts, the stable descending sort of
`main.py` line 208 is exactly list reversal. -/
lemma foldl_insertDesc_of_ascending :
    ∀ (rs : List Repl) (acc : List Repl),
      (∀ r ∈ rs, ∀ a ∈ acc, a.start_char < r.start_char) →
      List.Chain' (fun a b => a.start_char < b.start_char) rs →
      List.foldl (fun acc r => insertDesc r acc) acc rs = rs.reverse ++ acc := by
  intro rs
  induction rs with
  | nil => intro acc _ _; simp
  | cons r rs ih =>
    intro acc hcross hch
    have hins : insertDesc r acc = r :: acc := by
      cases acc with
      | nil => rfl
      | cons a as =>
        have : a.start_char < r.start_char :=
          hcross r (List.mem_cons_self _ _) a (List.mem_cons_self _ _)
        simp [insertDesc, this]
    have hhead : ∀ r' ∈ rs, r.start_char < r'.start_char := by
      haveI : IsTrans Repl (fun a b => a.start_char < b.start_char) :=
        ⟨fun _ _ _ h1 h2 => lt_trans h1 h2⟩
      have hpw := List.chain'_iff_pairwise.mp hch
      intro r' hr'
      exact (List.pairwise_cons.mp hpw).1 r' hr'
    rw [List.foldl_cons, hins, ih (r :: acc) ?_ hch.tail]
    · simp
    · intro r' hr' a ha
      rcases List.mem_cons.mp ha with rfl | ha
      · exact hhead r' hr'
      · exact hcross r' (List.mem_cons_of_mem _ hr') a ha

lemma chainRepl_ascending {text : List Char} :
    ∀ {c : Nat} {rs : List Repl}, ChainRepl text c rs →
      List.Chain' (fun a b => a.start_char < b.start_char) rs := by
  intro c rs
  induction rs generalizing c with
  | nil => intro _; exact List.chain'_nil
  | cons r rs ih =>
    rintro ⟨h1, h2, h3⟩
    cases rs with
    | nil => simp
    | cons r2 rs2 =>
      refine List.Chain'.cons ?_ (ih h3)
      have := h3.1
      have := h3.2.1
      omega

/-- C4: for every set of pairwise non-overlapping replacement spans within
the text (listed in ascending order), the descending-start rewrite pass of
`sanitize_text` produces the string in which each span's mask sits exactly
where that span's substring was removed, the text outside the replaced
spans is unchanged, and fragments and masks together cover the whole
original string (`renderFrom`). -/
theorem C4_descending_rewrite (text : List Char) (rs : List Repl)
    (h : ChainRepl text 0 rs) :
    buildSanitized text (sortDescStart rs) = renderFrom text 0 rs := by
  have hsort : sortDescStart rs = rs.reverse := by
    have := foldl_insertDesc_of_ascending rs [] (by intro r _ a ha; cases ha)
      (chainRepl_ascending h)
    simpa [sortDescStart] using this
  rw [hsort]
  exact revApply_eq_renderFrom rs h

/-- Witness for C4: two concrete spans; the pass yields fragment-mask
interleaving. -/
theorem C4_witness :
    ChainRepl "hello world".data 0
        [⟨0, 5, "[A]".data⟩, ⟨6, 11, "[B]".data⟩] ∧
    buildSanitized "hello world".data
        (sortDescStart [⟨0, 5, "[A]".data⟩, ⟨6, 11, "[B]".data⟩]) =
      renderFrom "hello world".data 0
        [⟨0, 5, "[A]".data⟩, ⟨6, 11, "[B]".data⟩] :=
  ⟨by decide, C4_descending_rewrite _ _ (by decide)⟩

/-! ### Generic list helpers for the grouper invariant -/

lemma drop_eq_cons_elim {α : Type} {zs : List α} {i : Nat} {x : α} {xs : List α}
    (h : zs.drop i = x :: xs) :
    i < zs.length ∧ zs[i]? = some x ∧ zs.drop (i + 1) = xs := by
  have hlt : i < zs.length := by
    by_contra hge
    rw [List.drop_of_length_le (by omega)] at h
    cases h
  refine ⟨hlt, ?_, ?_⟩
  · have := List.getElem?_drop zs i 0
    rw [h] at this
    simpa using this.symm
  · have : (zs.drop i).drop 1 = zs.drop (i + 1) := by
      rw [List.drop_drop]
    rw [← this, h]
    rfl

lemma chain_lt_headD_le {l : List Nat} (h : List.Chain' (· < ·) l) :
    ∀ y ∈ l, l.headD 0 ≤ y := by
  induction l with
  | nil => intro y hy; cases hy
  | cons a l ih =>
    intro y hy
    rcases List.mem_cons.mp hy with rfl | hy
    · simp
    · have hpw := List.chain'_iff_pairwise.mp h
      have := (List.pairwise_cons.mp hpw).1 y hy
      simp only [List.headD_cons]
      omega

lemma chain_lt_le_getLastD {l : List Nat} (h : List.Chain' (· < ·) l) :
    ∀ y ∈ l, y ≤ l.getLastD 0 := by
  induction l with
  | nil => intro y hy; cases hy
  | cons a l ih =>
    intro y hy
    cases l with
    | nil =>
      rcases List.mem_cons.mp hy with rfl | hy
      · simp
      · cases hy
    | cons b l2 =>
      have hgl : (a :: b :: l2).getLastD 0 = (b :: l2).getLastD 0 := by
        simp [List.getLastD_cons]
      rw [hgl]
      rcases List.mem_cons.mp hy with rfl | hy
      · have hb : b ≤ (b :: l2).getLastD 0 :=
          ih h.tail b (List.mem_cons_self _ _)
        have : y < b := h.rel_head
        omega
      · exact ih h.tail y hy

lemma chain_lt_headD_getLastD {l : List Nat} (h : List.Chain' (· < ·) l)
    (hne : l ≠ []) : l.headD 0 + (l.length - 1) ≤ l.getLastD 0 := by
  induction l with
  | nil => exact absurd rfl hne
  | cons a l ih =>
    cases l with
    | nil => simp
    | cons b l2 =>
      have hab : a < b := h.rel_head
      have hb := ih h.tail (by simp)
      have hgl : (a :: b :: l2).getLastD 0 = (b :: l2).getLastD 0 := by
        simp [List.getLastD_cons]
      rw [hgl]
      simp only [List.headD_cons, List.length_cons] at hb ⊢
      omega

lemma range'_getLastD : ∀ (n s d : Nat), (List.range' s (n + 1)).getLastD d = s + n := by
  intro n
  induction n with
  | zero => intro s d; rfl
  | succ n ih =>
    intro s d
    rw [List.range'_succ, List.getLastD_cons, ih]
    omega

/-- Chain plus transitivity-through-middle gives pairwise. -/
lemma chain'_to_pairwise {α : Type} {R : α → α → Prop} {P : α → Prop} :
    ∀ (l : List α), (∀ a ∈ l, P a) → List.Chain' R l →
      (∀ a b c, P b → R a b → R b c → R a c) → List.Pairwise R l := by
  intro l
  induction l with
  | nil => intro _ _ _; exact List.Pairwise.nil
  | cons a l ih =>
    intro hP hc htr
    have hpl : List.Pairwise R l :=
      ih (fun x hx => hP x (List.mem_cons_of_mem _ hx)) hc.tail htr
    refine List.Pairwise.cons (fun x hx => ?_) hpl
    cases l with
    | nil => cases hx
    | cons b l2 =>
      rcases List.mem_cons.mp hx with rfl | hx2
      · exact hc.rel_head
      · exact htr a b x (hP b (by simp)) hc.rel_head
          ((List.pairwise_cons.mp hpl).1 x hx2)

lemma pairwise_and_of_forall {α : Type} {R : α → α → Prop} {P : α → Prop}
    {l : List α} (hP : ∀ a ∈ l, P a) (h : List.Pairwise R l) :
    List.Pairwise (fun a b => P a ∧ P b ∧ R a b) l := by
  induction l with
  | nil => exact List.Pairwise.nil
  | cons a l ih =>
    obtain ⟨hrel, htail⟩ := List.pairwise_cons.mp h
    refine List.Pairwise.cons (fun b hb => ?_)
      (ih (fun x hx => hP x (List.mem_cons_of_mem _ hx)) htail)
    exact ⟨hP a (List.mem_cons_self _ _), hP b (List.mem_cons_of_mem _ hb), hrel b hb⟩

lemma pairwise_filterMap_of {α β : Type} {R : α → α → Prop} {S : β → β → Prop}
    (f : α → Option β)
    (h : ∀ a b x y, R a b → f a = some x → f b = some y → S x y) :
    ∀ {l : List α}, List.Pairwise R l → List.Pairwise S (l.filterMap f) := by
  intro l
  induction l with
  | nil => intro _; simp
  | cons a l ih =>
    intro hpw
    obtain ⟨hrel, htail⟩ := List.pairwise_cons.mp hpw
    rw [List.filterMap_cons]
    cases hfa : f a with
    | none => exact ih htail
    | some x =>
      refine List.Pairwise.cons (fun y hy => ?_) (ih htail)
      obtain ⟨b, hb, hfb⟩ := List.mem_filterMap.mp hy
      exact h a b x y (hrel b hb) hfa hfb

/-! ### Grouper invariants -/

lemma pyStartsWith_eq {l p : List Char} (h : pyStartsWith l p = true) :
    l = p ++ l.drop p.length := by
  induction p generalizing l with
  | nil => simp
  | cons a p ih =>
    cases l with
    | nil => simp [pyStartsWith, List.isPrefixOf] at h
    | cons b l =>
      simp only [pyStartsWith, List.isPrefixOf, Bool.and_eq_true, beq_iff_eq] at h
      obtain ⟨rfl, h2⟩ := h
      simp only [List.length_cons, List.drop_succ_cons, List.cons_append]
      rw [← ih h2]

lemma headD_append_of_ne_nil {l l2 : List Nat} (d : Nat) (h : l ≠ []) :
    (l ++ l2).headD d = l.headD d := by
  cases l with
  | nil => exact absurd rfl h
  | cons a as => rfl

/-- The instrumented grouper projects to the source grouper. -/
lemma geLoopI_proj :
    ∀ (xs : List (List Char × List Char × Option Nat)) (i : Nat)
      (es : List EntityI) (cur : Option EntityI),
      geLoop i xs (es.map projI) (cur.map projI) = (geLoopI i xs es cur).map projI := by
  intro xs
  induction xs with
  | nil =>
    intro i es cur
    cases cur <;> simp [geLoop, geLoopI, projI]
  | cons x rest ih =>
    intro i es cur
    obtain ⟨tok, lab, w⟩ := x
    cases w with
    | none => simpa [geLoop, geLoopI] using ih (i + 1) es cur
    | some wid =>
      cases cur with
      | none =>
        by_cases hB : pyStartsWith lab "B-".data
        · simpa [geLoop, geLoopI, hB] using
            ih (i + 1) es (some ⟨lab.drop 2, [tok], [wid], i, [i], [lab]⟩)
        · by_cases hI : pyStartsWith lab "I-".data
          · simpa [geLoop, geLoopI, hB, hI] using
              ih (i + 1) es (some ⟨lab.drop 2, [tok], [wid], i, [i], [lab]⟩)
          · simpa [geLoop, geLoopI, hB, hI] using ih (i + 1) es none
      | some ce =>
        by_cases hB : pyStartsWith lab "B-".data
        · simpa [geLoop, geLoopI, hB] using
            ih (i + 1) (es ++ [ce]) (some ⟨lab.drop 2, [tok], [wid], i, [i], [lab]⟩)
        · by_cases hI : pyStartsWith lab "I-".data
          · by_cases hty : lab.drop 2 = ce.type
            · simpa [geLoop, geLoopI, hB, hI, hty, projI] using
                ih (i + 1) es (some ⟨ce.type, ce.tokens ++ [tok], ce.word_ids ++ [wid],
                  ce.start_idx, ce.idxs ++ [i], ce.labs ++ [lab]⟩)
            · simpa [geLoop, geLoopI, hB, hI, hty, projI] using
                ih (i + 1) (es ++ [ce]) (some ⟨lab.drop 2, [tok], [wid], i, [i], [lab]⟩)
          · simpa [geLoop, geLoopI, hB, hI] using ih (i + 1) (es ++ [ce]) none

/-- `group_entities` is the projection of the instrumented grouper. -/
lemma group_entities_eq_proj (tokens labels : List (List Char))
    (wids : List (Option Nat)) :
    group_entities tokens labels wids = (group_entitiesI tokens labels wids).map projI := by
  have := geLoopI_proj (zip3 tokens labels wids) 0 [] none
  simpa [group_entities, group_entitiesI] using this

/-- Inter-entity ordering: all member indices of the first entity precede
the second entity's opening index. -/
def ordEnt (e1 e2 : EntityI) : Prop := e1.idxs.getLastD 0 < e2.start_idx

/-- Well-formedness of one instrumented entity with respect to the scanned
sequence `zs`. -/
structure EntOK (zs : List (List Char × List Char × Option Nat))
    (e : EntityI) : Prop where
  ne : e.idxs ≠ []
  len_tok : e.idxs.length = e.tokens.length
  len_wid : e.tokens.length = e.word_ids.length
  len_lab : e.labs.length = e.idxs.length
  head_start : e.idxs.headD 0 = e.start_idx
  asc : List.Chain' (· < ·) e.idxs
  labs_cat : ∀ lab ∈ e.labs, lab = "B-".data ++ e.type ∨ lab = "I-".data ++ e.type
  labs_at : ∀ p ∈ e.idxs.zip e.labs, ∃ t w, zs[p.1]? = some (t, p.2, some w)
  bound : ∀ j ∈ e.idxs, j < zs.length

/-- Invariant of the grouper loop accumulator. -/
structure AccOK (zs : List (List Char × List Char × Option Nat)) (i : Nat)
    (es : List EntityI) (cur : Option EntityI) : Prop where
  ok : ∀ e ∈ es ++ cur.toList, EntOK zs e
  chain : List.Chain' ordEnt (es ++ cur.toList)
  bnd : ∀ e ∈ es ++ cur.toList, e.idxs.getLastD 0 < i


lemma geLoopI_inv (zs : List (List Char × List Char × Option Nat)) :
    ∀ (xs : List (List Char × List Char × Option Nat)) (i : Nat)
      (es : List EntityI) (cur : Option EntityI),
      zs.drop i = xs → AccOK zs i es cur →
      (∀ e ∈ geLoopI i xs es cur, EntOK zs e) ∧
      List.Chain' ordEnt (geLoopI i xs es cur) := by
  intro xs
  induction xs with
  | nil =>
    intro i es cur _ hacc
    exact ⟨hacc.ok, hacc.chain⟩
  | cons x rest ih =>
    intro i es cur hdrop hacc
    obtain ⟨tok, lab, w⟩ := x
    obtain ⟨hi, hgi, hdrop'⟩ := drop_eq_cons_elim hdrop
    cases w with
    | none =>
      have hacc' : AccOK zs (i + 1) es cur :=
        ⟨hacc.ok, hacc.chain, fun e he => by have := hacc.bnd e he; omega⟩
      simpa [geLoopI] using ih (i + 1) es cur hdrop' hacc'
    | some wid =>
      have hopen :
          (lab = "B-".data ++ lab.drop 2 ∨ lab = "I-".data ++ lab.drop 2) →
          AccOK zs (i + 1) (es ++ cur.toList)
            (some ⟨lab.drop 2, [tok], [wid], i, [i], [lab]⟩) := by
        intro hcat
        have hnewOK : EntOK zs ⟨lab.drop 2, [tok], [wid], i, [i], [lab]⟩ := by
          refine ⟨by simp, rfl, rfl, rfl, rfl, List.chain'_singleton i, ?_, ?_, ?_⟩
          · intro lb hlb
            rcases List.mem_cons.mp hlb with rfl | h0
            · exact hcat
            · cases h0
          · intro p hp
            rcases List.mem_cons.mp hp with rfl | h0
            · exact ⟨tok, wid, hgi⟩
            · cases h0
          · intro j hj
            rcases List.mem_cons.mp hj with rfl | h0
            · exact hi
            · cases h0
        refine ⟨?_, ?_, ?_⟩
        · intro e he
          rcases List.mem_append.mp he with he | he
          · exact hacc.ok e he
          · simp at he
            subst he
            exact hnewOK
        · rw [List.chain'_append]
          refine ⟨hacc.chain, List.chain'_singleton _, ?_⟩
          intro a ha y hy
          simp at hy
          subst hy
          exact hacc.bnd a (List.mem_of_mem_getLast? ha)
        · intro e he
          rcases List.mem_append.mp he with he | he
          · have := hacc.bnd e he
            omega
          · simp at he
            subst he
            simp
      by_cases hB : pyStartsWith lab "B-".data
      · have hred : geLoopI i ((tok, lab, some wid) :: rest) es cur =
            geLoopI (i + 1) rest (es ++ cur.toList)
              (some ⟨lab.drop 2, [tok], [wid], i, [i], [lab]⟩) := by
          simp [geLoopI, hB]
        rw [hred]
        exact ih (i + 1) _ _ hdrop' (hopen (Or.inl (pyStartsWith_eq hB)))
      · by_cases hI : pyStartsWith lab "I-".data
        · cases cur with
          | none =>
            have hred : geLoopI i ((tok, lab, some wid) :: rest) es none =
                geLoopI (i + 1) rest es
                  (some ⟨lab.drop 2, [tok], [wid], i, [i], [lab]⟩) := by
              simp [geLoopI, hB, hI]
            rw [hred]
            have hacc' := hopen (Or.inr (pyStartsWith_eq hI))
            rw [show es ++ (none : Option EntityI).toList = es from by simp] at hacc'
            exact ih (i + 1) _ _ hdrop' hacc'
          | some ce =>
            have hceOK : EntOK zs ce :=
              hacc.ok ce (List.mem_append.mpr (Or.inr (by simp)))
            have hlast : ce.idxs.getLastD 0 < i :=
              hacc.bnd ce (List.mem_append.mpr (Or.inr (by simp)))
            by_cases hty : lab.drop 2 = ce.type
            · -- continuation: append member i to the open entity
              have hextOK : EntOK zs ⟨ce.type, ce.tokens ++ [tok],
                  ce.word_ids ++ [wid], ce.start_idx,
                  ce.idxs ++ [i], ce.labs ++ [lab]⟩ := by
                refine ⟨by simp, ?_, ?_, ?_, ?_, ?_, ?_, ?_, ?_⟩
                · simp [hceOK.len_tok]
                · simp [hceOK.len_wid]
                · simp [hceOK.len_lab]
                · exact (headD_append_of_ne_nil 0 hceOK.ne).trans hceOK.head_start
                · rw [List.chain'_append]
                  refine ⟨hceOK.asc, List.chain'_singleton _, ?_⟩
                  intro a ha y hy
                  simp at hy
                  subst hy
                  have := chain_lt_le_getLastD hceOK.asc a (List.mem_of_mem_getLast? ha)
                  omega
                · intro lb hlb
                  rcases List.mem_append.mp hlb with hlb | hlb
                  · exact hceOK.labs_cat lb hlb
                  · simp at hlb
                    rw [hlb]
                    right
                    show lab = "I-".data ++ ce.type
                    rw [← hty]
                    exact pyStartsWith_eq hI
                · intro p hp
                  rw [List.zip_append hceOK.len_lab.symm] at hp
                  rcases List.mem_append.mp hp with hp | hp
                  · exact hceOK.labs_at p hp
                  · obtain ⟨pa, pb⟩ := p
                    simp at hp
                    obtain ⟨hp1, hp2⟩ := hp
                    subst hp1
                    subst hp2
                    exact ⟨tok, wid, hgi⟩
                · intro j hj
                  rcases List.mem_append.mp hj with hj | hj
                  · exact hceOK.bound j hj
                  · simp at hj
                    subst hj
                    exact hi
              have hred : geLoopI i ((tok, lab, some wid) :: rest) es (some ce) =
                  geLoopI (i + 1) rest es (some ⟨ce.type, ce.tokens ++ [tok],
                    ce.word_ids ++ [wid], ce.start_idx,
                    ce.idxs ++ [i], ce.labs ++ [lab]⟩) := by
                simp [geLoopI, hB, hI, hty]
              rw [hred]
              refine ih (i + 1) _ _ hdrop' ⟨?_, ?_, ?_⟩
              · intro e he
                rcases List.mem_append.mp he with he | he
                · exact hacc.ok e (List.mem_append.mpr (Or.inl he))
                · simp at he
                  subst he
                  exact hextOK
              · have hch := hacc.chain
                rw [List.chain'_append] at hch ⊢
                obtain ⟨h1, _, h3⟩ := hch
                refine ⟨h1, List.chain'_singleton _, ?_⟩
                intro a ha y hy
                simp at hy
                subst hy
                exact h3 a ha ce (by simp)
              · intro e he
                rcases List.mem_append.mp he with he | he
                · have := hacc.bnd e (List.mem_append.mpr (Or.inl he))
                  omega
                · simp at he
                  subst he
                  simp
            · -- orphan recovery: close `ce`, open a fresh entity
              have hred : geLoopI i ((tok, lab, some wid) :: rest) es (some ce) =
                  geLoopI (i + 1) rest (es ++ [ce])
                    (some ⟨lab.drop 2, [tok], [wid], i, [i], [lab]⟩) := by
                simp [geLoopI, hB, hI, hty]
              rw [hred]
              exact ih (i + 1) _ _ hdrop' (hopen (Or.inr (pyStartsWith_eq hI)))
        · -- Outside: close any open entity
          have hred : geLoopI i ((tok, lab, some wid) :: rest) es cur =
              geLoopI (i + 1) rest (es ++ cur.toList) none := by
            simp [geLoopI, hB, hI]
          rw [hred]
          have heq : es ++ cur.toList ++ (none : Option EntityI).toList =
              es ++ cur.toList := by simp
          refine ih (i + 1) _ _ hdrop' ⟨?_, ?_, ?_⟩
          · intro e he
            rw [heq] at he
            exact hacc.ok e he
          · rw [heq]
            exact hacc.chain
          · intro e he
            rw [heq] at he
            have := hacc.bnd e he
            omega

lemma headD_mem {l : List Nat} (h : l ≠ []) (d : Nat) : l.headD d ∈ l := by
  cases l with
  | nil => exact absurd rfl h
  | cons a as => simp

lemma ordEnt_trans (zs : List (List Char × List Char × Option Nat))
    (x y z : EntityI) (hy : EntOK zs y) (hxy : ordEnt x y) (hyz : ordEnt y z) :
    ordEnt x z := by
  unfold ordEnt at *
  have h1 : y.idxs.headD 0 ∈ y.idxs := headD_mem hy.ne 0
  have h2 := chain_lt_le_getLastD hy.asc _ h1
  have h3 := hy.head_start
  omega

/-- The instrumented grouper's output satisfies the entity invariants. -/
lemma group_entitiesI_inv (tokens labels : List (List Char)) (wids : List (Option Nat)) :
    (∀ e ∈ group_entitiesI tokens labels wids, EntOK (zip3 tokens labels wids) e) ∧
    List.Chain' ordEnt (group_entitiesI tokens labels wids) := by
  have h0 : AccOK (zip3 tokens labels wids) 0 [] none := by
    refine ⟨?_, ?_, ?_⟩
    · intro e he; simp at he
    · simp
    · intro e he; simp at he
  have := geLoopI_inv (zip3 tokens labels wids) (zip3 tokens labels wids) 0 [] none rfl h0
  simpa [group_entitiesI] using this

lemma zip3_labels_at {ts ls : List (List Char)} {ws : List (Option Nat)} {j : Nat}
    {t l : List Char} {w : Option Nat}
    (h : (zip3 ts ls ws)[j]? = some (t, l, w)) : ls[j]? = some l := by
  unfold zip3 at h
  rw [List.getElem?_zip_eq_some] at h
  obtain ⟨-, h2⟩ := h
  rw [List.getElem?_zip_eq_some] at h2
  exact h2.1

lemma zip3_length_le_labels (ts ls : List (List Char)) (ws : List (Option Nat)) :
    (zip3 ts ls ws).length ≤ ls.length := by
  simp only [zip3, List.length_zip]
  omega

/-- Member indices of distinct entities are globally strictly increasing. -/
lemma flatten_idxs_pairwise (zs : List (List Char × List Char × Option Nat)) :
    ∀ (es : List EntityI), (∀ e ∈ es, EntOK zs e) → List.Chain' ordEnt es →
      List.Pairwise (· < ·) ((es.map (fun e => e.idxs)).flatten) := by
  intro es
  induction es with
  | nil => intro _ _; simp
  | cons e rest ih =>
    intro hok hch
    simp only [List.map_cons, List.flatten_cons]
    rw [List.pairwise_append]
    have heOK := hok e (by simp)
    refine ⟨List.chain'_iff_pairwise.mp heOK.asc,
      ih (fun x hx => hok x (by simp [hx])) hch.tail, ?_⟩
    intro a ha b hb
    obtain ⟨l, hl, hbl⟩ := List.mem_flatten.mp hb
    obtain ⟨e', he', rfl⟩ := List.mem_map.mp hl
    have he'OK := hok e' (by simp [he'])
    have hpw : List.Pairwise ordEnt (e :: rest) :=
      chain'_to_pairwise (e :: rest) hok hch
        (fun x y z hy hxy hyz => ordEnt_trans zs x y z hy hxy hyz)
    have hord : ordEnt e e' := (List.pairwise_cons.mp hpw).1 e' he'
    have hkey : e.idxs.getLastD 0 < e'.idxs.headD 0 := by
      unfold ordEnt at hord
      rw [he'OK.head_start]
      exact hord
    have hale := chain_lt_le_getLastD heOK.asc a ha
    have hble := chain_lt_headD_le he'OK.asc b hbl
    omega

/-- C7: every entity produced by the grouper has at least one member token,
all members carry the entity's category as their label suffix (their label
is `B-<cat>` or `I-<cat>`), entities appear in left-to-right token order
over disjoint (globally increasing) member-index ranges, and the consuming
loop skips any entity whose member list is empty.  The instrumented
grouper `group_entitiesI` projects onto `group_entities` (first conjunct),
so these facts are about `group_entities` output. -/
theorem C7_entity_invariants (tokens labels : List (List Char))
    (wids : List (Option Nat)) (text : List Char) (offsets : List (Nat × Nat)) :
    ((group_entitiesI tokens labels wids).map projI = group_entities tokens labels wids) ∧
    (∀ e ∈ group_entitiesI tokens labels wids,
      e.tokens ≠ [] ∧
      e.idxs ≠ [] ∧
      e.idxs.length = e.tokens.length ∧
      e.idxs.headD 0 = e.start_idx ∧
      (∀ p ∈ e.idxs.zip e.labs, labels.getD p.1 [] = p.2 ∧
        (p.2 = "B-".data ++ e.type ∨ p.2 = "I-".data ++ e.type))) ∧
    List.Pairwise (· < ·)
      (((group_entitiesI tokens labels wids).map (fun e => e.idxs)).flatten) ∧
    (∀ e : Entity, e.word_ids = [] → processEntity text labels offsets e = none) := by
  obtain ⟨hok, hch⟩ := group_entitiesI_inv tokens labels wids
  refine ⟨(group_entities_eq_proj tokens labels wids).symm, ?_, ?_, ?_⟩
  · intro e he
    have hOK := hok e he
    refine ⟨?_, hOK.ne, hOK.len_tok, hOK.head_start, ?_⟩
    · intro h0
      apply hOK.ne
      have : e.idxs.length = 0 := by rw [hOK.len_tok, h0]; rfl
      exact List.length_eq_zero.mp this
    · intro p hp
      have hcat : p.2 ∈ e.labs := (List.of_mem_zip hp).2
      refine ⟨?_, hOK.labs_cat p.2 hcat⟩
      obtain ⟨t, w, hz⟩ := hOK.labs_at p hp
      have := zip3_labels_at hz
      rw [List.getD_eq_getElem?_getD, this]
      rfl
  · exact flatten_idxs_pairwise _ _ hok hch
  · intro e h0
    simp [processEntity, h0]

/-- Witness for C7: on the spec's two-token NAME example the single emitted
entity has one member per token, both labelled with category NAME. -/
theorem C7_witness :
    ((⟨"NAME".data, ["John".data, "Doe".data], [0, 1], 0, [0, 1],
        ["B-NAME".data, "I-NAME".data]⟩ : EntityI) ∈
      group_entitiesI ["John".data, "Doe".data]
        ["B-NAME".data, "I-NAME".data] [some 0, some 1]) ∧
    (⟨"NAME".data, ["John".data, "Doe".data], [0, 1], 0, [0, 1],
        ["B-NAME".data, "I-NAME".data]⟩ : EntityI).tokens ≠ [] :=
  ⟨by decide,
   ((C7_entity_invariants ["John".data, "Doe".data]
        ["B-NAME".data, "I-NAME".data] [some 0, some 1] [] []).2.1 _ (by decide)).1⟩

/-- C8: the label-id lookup falls back to `"O"` when the predicted id is
absent from `id2label` in both its string-key and int-key forms (never
raising), and every entity emitted by the grouper has `start_idx` within
the bounds of the label list, so the unguarded `labels[start_idx]` access
in `sanitize_text` cannot fail; with those two facts the whole pure
pipeline is total by construction. -/
theorem C8_total_fallback :
    (∀ (d : List (PyKey × List Char)) (p : Int),
      dictFind d (Sum.inl (toString p).data) = none →
      dictFind d (Sum.inr p) = none →
      labelOfPred d p = "O".data) ∧
    (∀ (tokens labels : List (List Char)) (wids : List (Option Nat)),
      ∀ e ∈ group_entities tokens labels wids, e.start_idx < labels.length) := by
  constructor
  · intro d p h1 h2
    simp [labelOfPred, h1, h2]
  · intro tokens labels wids e he
    rw [group_entities_eq_proj] at he
    obtain ⟨eI, heI, rfl⟩ := List.mem_map.mp he
    have hOK := (group_entitiesI_inv tokens labels wids).1 eI heI
    have hmem : eI.idxs.headD 0 ∈ eI.idxs := headD_mem hOK.ne 0
    have hb := hOK.bound _ hmem
    have hlen := zip3_length_le_labels tokens labels wids
    show eI.start_idx < labels.length
    rw [← hOK.head_start]
    omega

/-- Witness for C8: an id absent from the table maps to `"O"`, and a
concrete grouped entity's `start_idx` is in label bounds. -/
theorem C8_witness :
    labelOfPred [(Sum.inr 0, "B-SSN".data)] 7 = "O".data ∧
    ((⟨"SSN".data, ["a".data], [0], 0⟩ : Entity) ∈
      group_entities ["a".data] ["B-SSN".data] [some 0]) ∧
    (⟨"SSN".data, ["a".data], [0], 0⟩ : Entity).start_idx <
      (["B-SSN".data] : List (List Char)).length :=
  ⟨C8_total_fallback.1 [(Sum.inr 0, "B-SSN".data)] 7 (by decide) (by decide),
   by decide,
   C8_total_fallback.2 ["a".data] ["B-SSN".data] [some 0] _ (by decide)⟩

/-! ### Span ordering under monotone offsets (C3, C5) -/

/-- The claim's hypothesis on the token offset table: per-token
`start <= end`, and monotonic non-decreasing, non-overlapping across
tokens (an earlier token's end never exceeds a later token's start). -/
def MonoOffsets (offsets : List (Nat × Nat)) : Prop :=
  (∀ i, i < offsets.length → (offsets.getD i (0, 0)).1 ≤ (offsets.getD i (0, 0)).2) ∧
  (∀ j, j < offsets.length → ∀ i, i < j →
    (offsets.getD i (0, 0)).2 ≤ (offsets.getD j (0, 0)).1)

instance instDecidableMonoOffsets (offsets : List (Nat × Nat)) :
    Decidable (MonoOffsets offsets) :=
  inferInstanceAs (Decidable (_ ∧ _))

/-- Master ordering lemma: under monotone non-overlapping offsets, the
collected `(item, replacement)` pairs of one sanitize call are strictly
ordered by replacement start, non-overlapping, and in text bounds. -/
lemma sanCollect_ordered (text : List Char) (labels : List (List Char))
    (offsets : List (Nat × Nat)) (tokens : List (List Char))
    (wids : List (Option Nat)) (hmono : MonoOffsets offsets) :
    List.Pairwise (fun p q => p.2.end_char ≤ q.2.start_char ∧
        p.2.start_char < q.2.start_char)
      (sanCollect text labels offsets tokens wids) ∧
    (∀ p ∈ sanCollect text labels offsets tokens wids,
      p.2.start_char < p.2.end_char ∧ p.2.end_char ≤ text.length) := by
  obtain ⟨hok, hch⟩ := group_entitiesI_inv tokens labels wids
  have hcollect : sanCollect text labels offsets tokens wids =
      (group_entitiesI tokens labels wids).filterMap
        (fun eI => processEntity text labels offsets (projI eI)) := by
    show (group_entities tokens labels wids).filterMap
        (processEntity text labels offsets) = _
    rw [group_entities_eq_proj, List.filterMap_map]
    rfl
  constructor
  · rw [hcollect]
    have hpwOrd : List.Pairwise ordEnt (group_entitiesI tokens labels wids) :=
      chain'_to_pairwise _ hok hch
        (fun x y z hy hxy hyz => ordEnt_trans _ x y z hy hxy hyz)
    have hpwAnd := pairwise_and_of_forall hok hpwOrd
    refine pairwise_filterMap_of _ ?_ hpwAnd
    intro a b x y hRab hfa hfb
    obtain ⟨hOKa, hOKb, hord⟩ := hRab
    obtain ⟨-, -, ha3, -, ha5, -, -, -, ha9, -, -, -⟩ := processEntity_some_spec hfa
    obtain ⟨-, hb2, -, hb4, -, -, -, -, -, -, -, -⟩ := processEntity_some_spec hfb
    have hba : a.start_idx + a.tokens.length - 1 ≤ a.idxs.getLastD 0 := by
      have h1 := chain_lt_headD_getLastD hOKa.asc hOKa.ne
      have h2 := hOKa.head_start
      have h3 := hOKa.len_tok
      omega
    have hlt : a.start_idx + a.tokens.length - 1 < b.start_idx := by
      unfold ordEnt at hord
      omega
    have hEnd : x.2.end_char ≤ y.2.start_char := by
      rw [ha5, hb4]
      exact hmono.2 b.start_idx hb2 _ hlt
    exact ⟨hEnd, by omega⟩
  · rw [hcollect]
    intro p hp
    obtain ⟨eI, heI, hpe⟩ := List.mem_filterMap.mp hp
    obtain ⟨-, -, -, -, -, -, -, h8, h9, -, -, -⟩ := processEntity_some_spec hpe
    exact ⟨h9, h8⟩

/-- C3: under a monotonic non-decreasing, non-overlapping offset table, the
`redacted_items` list returned by `sanitize` is exactly the collected items
in collection order, and the collected pairs are strictly ascending in
`start_char` — so the items appear in left-to-right order of occurrence,
independent of the internal descending-order rewrite pass. -/
theorem C3_items_ordered (text : List Char) (labels : List (List Char))
    (offsets : List (Nat × Nat)) (tokens : List (List Char))
    (wids : List (Option Nat)) (hmono : MonoOffsets offsets) :
    (sanitize text labels offsets tokens wids).2 =
      (sanCollect text labels offsets tokens wids).map (fun p => p.1) ∧
    List.Pairwise (fun p q => p.2.start_char < q.2.start_char)
      (sanCollect text labels offsets tokens wids) := by
  refine ⟨rfl, ?_⟩
  exact ((sanCollect_ordered text labels offsets tokens wids hmono).1).imp
    (fun h => h.2)

/-- Witness for C3: two entities of different categories at increasing
offsets; the items come back in ascending-start order. -/
theorem C3_witness :
    MonoOffsets [(0, 1), (1, 2)] ∧
    ((sanitize "ab".data ["B-SSN".data, "B-PHONE".data] [(0, 1), (1, 2)]
        ["a".data, "b".data] [some 0, some 1]).2 =
      (sanCollect "ab".data ["B-SSN".data, "B-PHONE".data] [(0, 1), (1, 2)]
        ["a".data, "b".data] [some 0, some 1]).map (fun p => p.1) ∧
    List.Pairwise (fun p q => p.2.start_char < q.2.start_char)
      (sanCollect "ab".data ["B-SSN".data, "B-PHONE".data] [(0, 1), (1, 2)]
        ["a".data, "b".data] [some 0, some 1])) :=
  ⟨by decide,
   C3_items_ordered "ab".data ["B-SSN".data, "B-PHONE".data] [(0, 1), (1, 2)]
     ["a".data, "b".data] [some 0, some 1] (by decide)⟩

/-- C5: under a monotonic non-decreasing, non-overlapping offset table, the
replacement spans collected by the sanitizer are pairwise non-overlapping,
sorted by start, and each contained in `[0, len(text)]`. -/
theorem C5_spans_disjoint (text : List Char) (labels : List (List Char))
    (offsets : List (Nat × Nat)) (tokens : List (List Char))
    (wids : List (Option Nat)) (hmono : MonoOffsets offsets) :
    List.Pairwise (fun r1 r2 => r1.end_char ≤ r2.start_char ∧
        r1.start_char < r2.start_char)
      ((sanCollect text labels offsets tokens wids).map (fun p => p.2)) ∧
    (∀ r ∈ (sanCollect text labels offsets tokens wids).map (fun p => p.2),
      r.start_char < r.end_char ∧ r.end_char ≤ text.length) := by
  obtain ⟨h1, h2⟩ := sanCollect_ordered text labels offsets tokens wids hmono
  constructor
  · rw [List.pairwise_map]
    exact h1
  · intro r hr
    obtain ⟨p, hp, rfl⟩ := List.mem_map.mp hr
    exact h2 p hp

/-- Witness for C5: the same two-entity input; both spans lie in bounds and
do not overlap. -/
theorem C5_witness :
    MonoOffsets [(0, 1), (1, 2)] ∧
    (List.Pairwise (fun r1 r2 => r1.end_char ≤ r2.start_char ∧
        r1.start_char < r2.start_char)
      ((sanCollect "ab".data ["B-SSN".data, "B-PHONE".data] [(0, 1), (1, 2)]
        ["a".data, "b".data] [some 0, some 1]).map (fun p => p.2)) ∧
    (∀ r ∈ (sanCollect "ab".data ["B-SSN".data, "B-PHONE".data] [(0, 1), (1, 2)]
        ["a".data, "b".data] [some 0, some 1]).map (fun p => p.2),
      r.start_char < r.end_char ∧ r.end_char ≤ ("ab".data).length)) :=
  ⟨by decide,
   C5_spans_disjoint "ab".data ["B-SSN".data, "B-PHONE".data] [(0, 1), (1, 2)]
     ["a".data, "b".data] [some 0, some 1] (by decide)⟩

/-! ### C1 and C2 -/

/-- C2: `group_entities` implements exactly the spec's BIO state machine
(`bioGroup`): absent word-ids are skipped, `B-` closes and reopens, `I-`
appends on category match and otherwise closes-and-reopens (orphan
recovery), anything else closes without opening, and the open entity is
flushed at end of input. -/
theorem C2_bio_state_machine (tokens labels : List (List Char))
    (wids : List (Option Nat)) :
    group_entities tokens labels wids = bioGroup tokens labels wids := by
  have := geLoop_eq_bioRun (zip3 tokens labels wids) 0 [] none
  simpa [group_entities, bioGroup] using this

/-- Counterexample to C1 as stated: with a skipped (absent word-id) token
interleaved inside an entity, the entity's member token indices are
`[0, 2]`, so its last member is token `2` with offset end `3`; but the
emitted replacement's `end_char` is `2`, the offset end of token
`start_idx + len(tokens) - 1 = 1`, not of the last member token. -/
theorem C1_counterexample :
    ((group_entitiesI ["a".data, "b".data, "c".data]
        ["B-NAME".data, "I-NAME".data, "I-NAME".data]
        [some 0, none, some 1]).map (fun e => e.idxs) = [[0, 2]]) ∧
    ((sanCollect "abc".data ["B-NAME".data, "I-NAME".data, "I-NAME".data]
        [(0, 1), (1, 2), (2, 3)] ["a".data, "b".data, "c".data]
        [some 0, none, some 1]).map (fun p => p.2.end_char) = [2]) ∧
    (([(0, 1), (1, 2), (2, 3)] : List (Nat × Nat)).getD 2 (0, 0)).2 = 3 ∧
    (2 : Nat) ≠ 3 := by decide

/-- C1 amended: for every entity emitted by the grouper that survives
resolution, `start_char` is the offset-table start of the entity's first
member token (`idxs.headD 0 = start_idx`), while `end_char` is the
offset-table end of the token at index `start_idx + len(tokens) - 1`;
this index is the entity's last member token exactly when the member
indices are contiguous (no skipped token inside the entity). -/
theorem C1_amended_span (text : List Char) (labels : List (List Char))
    (offsets : List (Nat × Nat)) (tokens : List (List Char))
    (wids : List (Option Nat)) :
    ∀ eI ∈ group_entitiesI tokens labels wids,
      ∀ pr : List Char × Repl,
        processEntity text labels offsets (projI eI) = some pr →
        pr.2.start_char = (offsets.getD (eI.idxs.headD 0) (0, 0)).1 ∧
        pr.2.end_char =
          (offsets.getD (eI.start_idx + eI.tokens.length - 1) (0, 0)).2 ∧
        (eI.idxs = List.range' eI.start_idx eI.tokens.length →
          pr.2.end_char = (offsets.getD (eI.idxs.getLastD 0) (0, 0)).2) := by
  intro eI heI pr hpr
  have hOK := (group_entitiesI_inv tokens labels wids).1 eI heI
  obtain ⟨-, -, -, h4, h5, -, -, -, -, -, -, -⟩ := processEntity_some_spec hpr
  refine ⟨?_, ?_, ?_⟩
  · rw [hOK.head_start]
    exact h4
  · exact h5
  · intro hrange
    have hpos : 0 < eI.idxs.length := List.length_pos.mpr hOK.ne
    have hlen := hOK.len_tok
    obtain ⟨n, hn⟩ : ∃ n, eI.tokens.length = n + 1 :=
      ⟨eI.tokens.length - 1, by omega⟩
    rw [hrange, hn, range'_getLastD]
    have hidx : (projI eI).start_idx + (projI eI).tokens.length - 1 =
        eI.start_idx + n := by
      show eI.start_idx + eI.tokens.length - 1 = eI.start_idx + n
      omega
    rw [h5, hidx]

/-- Witness for C1 (amended): a single-token PHONE entity; `start_char` is
the offset start of its first member token. -/
theorem C1_witness :
    ((⟨"PHONE".data, ["555".data], [0], 0, [0], ["B-PHONE".data]⟩ : EntityI) ∈
        group_entitiesI ["555".data] ["B-PHONE".data] [some 0]) ∧
    ("555".data, (⟨0, 3, "[PHONE]".data⟩ : Repl)).2.start_char =
      (([(0, 3)] : List (Nat × Nat)).getD
        ((⟨"PHONE".data, ["555".data], [0], 0, [0],
            ["B-PHONE".data]⟩ : EntityI).idxs.headD 0) (0, 0)).1 :=
  ⟨by decide,
   (C1_amended_span "555".data ["B-PHONE".data] [(0, 3)] ["555".data] [some 0]
     ⟨"PHONE".data, ["555".data], [0], 0, [0], ["B-PHONE".data]⟩ (by decide)
     ("555".data, ⟨0, 3, "[PHONE]".data⟩) (by decide)).1⟩
